import Mathlib

/-!
Verification of the `cipher_breaker` repository (monoalphabetic substitution
cipher breaking by Metropolis–Hastings / simulated annealing search).

The definitions below are a shallow embedding of the Python sources
`src/cipher_breaker/metropolis_hastings.py`, `metropolis_hastings_2d.py`,
`metropolis_hastings_4d.py` and `wrapper.py`.  NumPy float values are
modelled by `ℚ` where the code only compares them and by `ℝ` where
logarithms and exponentials are involved; a NumPy `IndexError` raised by
`np.where(...)[0][0]` on a missing symbol is modelled by `Option` (`none` =
the exception propagates).  Randomness (`np.random.choice`,
`np.random.uniform`, `np.random.rand`) is modelled by explicit streams of
draws passed into the search loops, one record per iteration.
-/

/-- The fixed 27-symbol alphabet, `metropolis_hastings.py` line 19. -/
def alphabet : List Char := "ABCDEFGHIJKLMNOPQRSTUVWXYZ_".toList

/-- `substitute_encrypt` (`metropolis_hastings.py` lines 123–144): each
character of the alphabet is replaced by the key symbol at its alphabet
position; other characters pass through. -/
def substitute_encrypt (plaintext : String) (key : String) : String :=
  String.mk (plaintext.toList.map fun c =>
    if c ∈ alphabet then key.toList.getD (alphabet.indexOf c) c else c)

/-- `substitute_decrypt` (`metropolis_hastings.py` lines 146–167): each
character occurring in the key is replaced by the alphabet symbol at its key
position; other characters pass through. -/
def substitute_decrypt (ciphertext : String) (key : String) : String :=
  String.mk (ciphertext.toList.map fun c =>
    if c ∈ key.toList then alphabet.getD (key.toList.indexOf c) c else c)

/-- A valid key: a permutation of the 27-symbol alphabet (right length, no
duplicate symbol, no symbol outside the alphabet). -/
def ValidKey (key : String) : Prop :=
  key.toList.length = 27 ∧ key.toList.Nodup ∧ ∀ c ∈ key.toList, c ∈ alphabet

instance : DecidablePred ValidKey := fun key => by
  unfold ValidKey; infer_instance

/-- The identity key (the alphabet itself). -/
def idKeyS : String := "ABCDEFGHIJKLMNOPQRSTUVWXYZ_"

/-- Index of a character in the alphabet, `np.where(self.alphabet == c)[0][0]`:
`none` models the `IndexError` raised when the character is absent. -/
def alphabetIdx (c : Char) : Option (Fin 27) :=
  if h : alphabet.indexOf c < 27 then some ⟨alphabet.indexOf c, h⟩ else none

/-- `get_bigrams` (`metropolis_hastings.py` lines 74–83): all windows of
length 2, as character pairs. -/
def get_bigrams (text : String) : List (Char × Char) :=
  (List.range (text.toList.length - 1)).map fun i =>
    (text.toList.getD i ' ', text.toList.getD (i + 1) ' ')

/-- `get_bigrams` of the 4D class (`metropolis_hastings_4d.py` lines 126–135):
all windows of length 4. -/
def get_fourgrams (text : String) : List (Char × Char × Char × Char) :=
  (List.range (text.toList.length - 3)).map fun i =>
    (text.toList.getD i ' ', text.toList.getD (i + 1) ' ',
     text.toList.getD (i + 2) ' ', text.toList.getD (i + 3) ' ')

/-- Increment one cell of an order-2 count tensor (`TM[i, j] += 1`). -/
def bump (TM : Fin 27 → Fin 27 → ℕ) (i j : Fin 27) : Fin 27 → Fin 27 → ℕ :=
  fun a b => if a = i ∧ b = j then TM a b + 1 else TM a b

/-- One loop body of `transition_matrix` (`metropolis_hastings.py` lines
97–101): look up both symbol indices (an absent symbol raises, i.e. `none`)
and increment the addressed cell. -/
def tmStep (TM : Fin 27 → Fin 27 → ℕ) (bg : Char × Char) :
    Option (Fin 27 → Fin 27 → ℕ) := do
  let i ← alphabetIdx bg.1
  let j ← alphabetIdx bg.2
  pure (bump TM i j)

/-- `transition_matrix` (`metropolis_hastings.py` lines 85–105): accumulate
bigram counts, then replace every zero cell with 1. -/
def transition_matrix (bigrams : List (Char × Char)) :
    Option (Fin 27 → Fin 27 → ℕ) :=
  (bigrams.foldlM tmStep (fun _ _ => 0)).map
    (fun TM i j => if TM i j = 0 then 1 else TM i j)

/-- `plausibility` (`metropolis_hastings.py` lines 107–121):
`np.sum(np.log(TM_ref) * TM_obs)` over the order-2 observed tensor of the
text.  Reference cells are floats, modelled as rationals cast to `ℝ`. -/
noncomputable def plausibility (text : String) (TMref : Fin 27 → Fin 27 → ℚ) :
    Option ℝ :=
  (transition_matrix (get_bigrams text)).map fun TMobs =>
    ∑ i : Fin 27, ∑ j : Fin 27, Real.log (TMref i j : ℝ) * (TMobs i j : ℝ)

/-- Exchange the entries at two positions of a list, Python
`key[i], key[j] = key[j], key[i]`. -/
def swapList (l : List Char) (i j : ℕ) : List Char :=
  let x := l.getD i ' '
  let y := l.getD j ' '
  (l.set i y).set j x

/-- Exchange two key positions (`metropolis_hastings.py` lines 43–46). -/
def swapKey (key : String) (a b : Fin 27) : String :=
  String.mk (swapList key.toList a b)

/-- Mutable state of the base Metropolis loop: current key, current score,
and the accumulated `plausibility_scores` trajectory. -/
structure MHState where
  key : String
  p : ℝ
  scores : List ℝ

/-- One iteration's random draws of the base loop: the two swap positions of
`np.random.choice(len(self.alphabet), 2, replace=False)` and the
`np.random.uniform(0, 1)` draw. -/
structure RandStep where
  a : Fin 27
  b : Fin 27
  u : ℚ

/-- Result of a search run: returned key, decrypted text, returned score,
plus the `plausibility_scores` trajectory accumulated on the object. -/
structure MHResult where
  key : String
  text : String
  score : ℝ
  scores : List ℝ

/-- One iteration of `MetropolisHastings.prolom_substitute`
(`metropolis_hastings.py` lines 42–56): swap two random key positions, score
the candidate decryption, accept when `q > 1` or with the fixed-probability
event `u < 0.01`, then append the post-decision current score. -/
noncomputable def mhStep (text : String) (TMref : Fin 27 → Fin 27 → ℚ)
    (st : MHState) (r : RandStep) : Option MHState :=
  let candidate_key := swapKey st.key r.a r.b
  (plausibility (substitute_decrypt text candidate_key) TMref).map fun pc =>
    if 1 < pc / st.p ∨ r.u < 1 / 100 then
      ⟨candidate_key, pc, st.scores ++ [pc]⟩
    else
      ⟨st.key, st.p, st.scores ++ [st.p]⟩

/-- `MetropolisHastings.prolom_substitute` (`metropolis_hastings.py` lines
23–62): one `RandStep` per iteration; returns the final current key, its
decryption and the final current score. -/
noncomputable def mhRun (text : String) (TMref : Fin 27 → Fin 27 → ℚ)
    (randoms : List RandStep) (start_key : String) : Option MHResult := do
  let p0 ← plausibility (substitute_decrypt text start_key) TMref
  let final ← randoms.foldlM (mhStep text TMref) ⟨start_key, p0, [p0]⟩
  pure ⟨final.key, substitute_decrypt text final.key, final.p, final.scores⟩

/-- The `(worst_score, worst_bigram)` scan of `mutate_key_smart`
(`metropolis_hastings_2d.py` lines 82–96, `metropolis_hastings_4d.py`
lines 84–102): fold over the windows, skipping windows whose score lookup
fails, keeping the first strictly smaller score (`worst_score` starts at
`float("inf")`, modelled by the `none` accumulator). -/
def worstFold {W : Type} (valScore : W → Option ℚ) :
    List W → Option (W × ℚ) → Option (W × ℚ)
  | [], acc => acc
  | w :: ws, acc =>
    match valScore w with
    | none => worstFold valScore ws acc
    | some s =>
      match acc with
      | none => worstFold valScore ws (some (w, s))
      | some p =>
        if s < p.2 then worstFold valScore ws (some (w, s))
        else worstFold valScore ws acc

/-- Reference score of a bigram window: both symbols must be in the alphabet
(`metropolis_hastings_2d.py` lines 86–93). -/
def valScore2 (TMref : Fin 27 → Fin 27 → ℚ) (bg : Char × Char) : Option ℚ := do
  let i ← alphabetIdx bg.1
  let j ← alphabetIdx bg.2
  pure (TMref i j)

/-- Reference score of a 4-gram window: all four symbols must be in the
alphabet (`metropolis_hastings_4d.py` lines 88–99). -/
def valScore4 (TMref : Fin 27 → Fin 27 → Fin 27 → Fin 27 → ℚ)
    (fg : Char × Char × Char × Char) : Option ℚ := do
  let i ← alphabetIdx fg.1
  let j ← alphabetIdx fg.2.1
  let k ← alphabetIdx fg.2.2.1
  let l ← alphabetIdx fg.2.2.2
  pure (TMref i j k l)

/-- Swap step of the 2D smart mutation (`metropolis_hastings_2d.py` lines
98–104): positions of the worst bigram's two symbols in the key; no swap if
either is absent. -/
def smart_swap_2d (key : List Char) (bg : Char × Char) : List Char :=
  match key.findIdx? (fun x => x == bg.1), key.findIdx? (fun x => x == bg.2) with
  | some i1, some i2 => swapList key i1 i2
  | _, _ => key

/-- Swap step of the 4D smart mutation (`metropolis_hastings_4d.py` lines
104–112): first positions of the four window symbols in the key, drop the
absent ones, swap the first two found. -/
def smart_swap_4d (key : List Char) (fg : Char × Char × Char × Char) :
    List Char :=
  let idxs := [fg.1, fg.2.1, fg.2.2.1, fg.2.2.2].map
    (fun c => key.findIdx? (fun x => x == c))
  match idxs.filterMap id with
  | i1 :: i2 :: _ => swapList key i1 i2
  | _ => key

/-- `MetropolisHastings2D.mutate_key_smart` (`metropolis_hastings_2d.py`
lines 72–106); `coin` is the `np.random.rand()` draw, `a b` the positions of
the simple-permutation branch. -/
def mutate_key_smart (key decrypted : String) (TMref : Fin 27 → Fin 27 → ℚ)
    (coin : ℚ) (a b : Fin 27) : String :=
  if coin < 1 / 2 then swapKey key a b
  else
    match worstFold (valScore2 TMref) (get_bigrams decrypted) none with
    | none => key
    | some p => String.mk (smart_swap_2d key.toList p.1)

/-- `MetropolisHastings4D.mutate_key_smart` (`metropolis_hastings_4d.py`
lines 74–114). -/
def mutate_key_smart_4d (key decrypted : String)
    (TMref : Fin 27 → Fin 27 → Fin 27 → Fin 27 → ℚ)
    (coin : ℚ) (a b : Fin 27) : String :=
  if coin < 1 / 2 then swapKey key a b
  else
    match worstFold (valScore4 TMref) (get_fourgrams decrypted) none with
    | none => key
    | some p => String.mk (smart_swap_4d key.toList p.1)

/-- The cooling rate of the 2D loop, `np.exp(np.log(0.01) / iter)`
(`metropolis_hastings_2d.py` line 44). -/
noncomputable def cooling_rate_2d (iter : ℕ) : ℝ :=
  Real.exp (Real.log (1 / 100) / iter)

/-- The 2D temperature schedule (`metropolis_hastings_2d.py` line 56):
geometric decay clamped below by `min_temperature = 0.01`. -/
noncomputable def temperature_2d (iter i : ℕ) : ℝ :=
  max (1 / 100) (5 * cooling_rate_2d iter ^ i)

/-- The 2D acceptance probability (`metropolis_hastings_2d.py` line 58):
`1 if delta >= 0 else np.exp(delta)`. -/
noncomputable def accept_prob_2d (delta : ℝ) : ℝ :=
  if 0 ≤ delta then 1 else Real.exp delta

/-- The 4D temperature schedule (`metropolis_hastings_4d.py` lines 45–46,
58): `5.0 * 0.999 ** i`, with no lower clamp. -/
noncomputable def temperature_4d (i : ℕ) : ℝ := 5 * (999 / 1000 : ℝ) ^ i

/-- The 4D acceptance probability (`metropolis_hastings_4d.py` line 59):
`min(1, np.exp(delta))`. -/
noncomputable def accept_prob_4d (delta : ℝ) : ℝ := min 1 (Real.exp delta)

/-- Mutable state of the 2D annealing loop: current key and score, best-ever
key and score, trajectory, and the iteration counter driving the schedule. -/
structure State2D where
  key : String
  p : ℝ
  best_key : String
  best : ℝ
  scores : List ℝ
  iterIdx : ℕ

/-- One iteration's random draws of the 2D loop: the `np.random.rand()`
branch coin and swap positions of `mutate_key_smart`, and the acceptance
draw `np.random.uniform(0, 1)`. -/
structure Rand2D where
  coin : ℚ
  a : Fin 27
  b : Fin 27
  u : ℚ

/-- One iteration of `MetropolisHastings2D.prolom_substitute`
(`metropolis_hastings_2d.py` lines 47–61): mutate, score, append the
pre-decision current score, update the best, then accept with the annealing
rule.  `decrypted0` is the decryption of the ciphertext under the start key,
computed once before the loop (line 36) and never refreshed. -/
noncomputable def step2D (text decrypted0 : String)
    (TMref : Fin 27 → Fin 27 → ℚ) (iter : ℕ) (st : State2D) (r : Rand2D) :
    Option State2D :=
  let candidate_key := mutate_key_smart st.key decrypted0 TMref r.coin r.a r.b
  (plausibility (substitute_decrypt text candidate_key) TMref).map fun pc =>
    let scores := st.scores ++ [st.p]
    let bestp := if st.best < pc then pc else st.best
    let bestk := if st.best < pc then candidate_key else st.best_key
    let T := temperature_2d iter st.iterIdx
    let delta := (pc - st.p) / T
    if (r.u : ℝ) < accept_prob_2d delta then
      ⟨candidate_key, pc, bestk, bestp, scores, st.iterIdx + 1⟩
    else
      ⟨st.key, st.p, bestk, bestp, scores, st.iterIdx + 1⟩

/-- `MetropolisHastings2D.prolom_substitute` (`metropolis_hastings_2d.py`
lines 21–70): one `Rand2D` per iteration; returns the best key found, the
decryption under it, and the best score. -/
noncomputable def run2D (text : String) (TMref : Fin 27 → Fin 27 → ℚ)
    (randoms : List Rand2D) (start_key : String) : Option MHResult := do
  let p0 ← plausibility (substitute_decrypt text start_key) TMref
  let final ← randoms.foldlM
    (step2D text (substitute_decrypt text start_key) TMref randoms.length)
    ⟨start_key, p0, start_key, p0, [p0], 0⟩
  pure ⟨final.best_key, substitute_decrypt text final.best_key, final.best,
    final.scores⟩

/-- The object state set up by `MetropolisHastings.__init__`
(`metropolis_hastings.py` lines 18–21).  `randomKey` stands for the
`generate_random_key()` draw used when no (or an empty, hence falsy) start
key is supplied. -/
structure MetropolisHastingsObj where
  start_key : String
  plausibility_scores : List ℝ

/-- `MetropolisHastings.__init__`: stores the supplied key as-is (the empty
string is falsy in Python and triggers a random key instead). -/
def mhInit (start_key : Option String) (randomKey : String) :
    MetropolisHastingsObj :=
  ⟨match start_key with
    | some k => if k = "" then randomKey else k
    | none => randomKey, []⟩

/-- `CipherBreakerWrapper.set_start_key` (`wrapper.py` lines 35–37): plain
assignment of the key string. -/
def set_start_key (obj : MetropolisHastingsObj) (k : String) :
    MetropolisHastingsObj :=
  { obj with start_key := k }

/-- First window of minimal score in scan order, per the specification's
description of the worst-window selection: invalid windows are skipped, the
minimum reference count wins, ties broken by first occurrence. -/
def firstArgmin {W : Type} (valScore : W → Option ℚ) :
    List W → Option (W × ℚ)
  | [] => none
  | w :: ws =>
    match valScore w with
    | none => firstArgmin valScore ws
    | some s =>
      match firstArgmin valScore ws with
      | none => some (w, s)
      | some p => if p.2 < s then some p else some (w, s)

/-- The 2D smart mutation as the specification describes it: take the first
two distinct symbols of the worst window, keep those present in the key, and
exchange their key positions; fewer than two positions is a no-op. -/
def mutate_key_smart_spec (key decrypted : String)
    (TMref : Fin 27 → Fin 27 → ℚ) (coin : ℚ) (a b : Fin 27) : String :=
  if coin < 1 / 2 then swapKey key a b
  else
    match firstArgmin (valScore2 TMref) (get_bigrams decrypted) with
    | none => key
    | some p =>
      let syms := if p.1.1 = p.1.2 then [p.1.1] else [p.1.1, p.1.2]
      match syms.filterMap (fun c => key.toList.findIdx? (fun x => x == c)) with
      | i :: j :: _ => String.mk (swapList key.toList i j)
      | _ => key

/-- The 4D smart mutation as amended: take the worst window's symbols in
window order without removing duplicates, keep those present in the key, and
exchange the key positions of the first two (a no-op when they coincide);
fewer than two positions is a no-op. -/
def mutate_key_smart_4d_spec (key decrypted : String)
    (TMref : Fin 27 → Fin 27 → Fin 27 → Fin 27 → ℚ)
    (coin : ℚ) (a b : Fin 27) : String :=
  if coin < 1 / 2 then swapKey key a b
  else
    match firstArgmin (valScore4 TMref) (get_fourgrams decrypted) with
    | none => key
    | some p =>
      match [p.1.1, p.1.2.1, p.1.2.2.1, p.1.2.2.2].filterMap
          (fun c => key.toList.findIdx? (fun x => x == c)) with
      | i :: j :: _ => String.mk (swapList key.toList i j)
      | _ => key

/-- Number of windows addressing the cell `(i, j)`. -/
def countBG (bigrams : List (Char × Char)) (i j : Fin 27) : ℕ :=
  bigrams.countP fun bg =>
    decide (alphabetIdx bg.1 = some i ∧ alphabetIdx bg.2 = some j)

/-- The all-ones order-2 reference tensor. -/
def oneRef2 : Fin 27 → Fin 27 → ℚ := fun _ _ => 1

/-- The all-ones order-4 reference tensor. -/
def oneRef4 : Fin 27 → Fin 27 → Fin 27 → Fin 27 → ℚ := fun _ _ _ _ => 1

/-- Alphabet index of `A`. -/
def iA : Fin 27 := ⟨0, by norm_num⟩

/-- Alphabet index of `B`. -/
def iB : Fin 27 := ⟨1, by norm_num⟩

/-- A reference tensor whose only non-one cell is `(A, B) = 2`. -/
def refAB2 : Fin 27 → Fin 27 → ℚ := fun i j => if i = iA ∧ j = iB then 2 else 1

/-- A string of 27 `A`s: the right length but not a permutation. -/
def badKey : String := "AAAAAAAAAAAAAAAAAAAAAAAAAAA"

lemma alphabet_length : alphabet.length = 27 := by decide

lemma alphabet_nodup : alphabet.Nodup := by decide

lemma encChar_eq_get (key : String) (hk : ValidKey key) {c : Char}
    (hc : c ∈ alphabet) :
    (if c ∈ alphabet then key.toList.getD (alphabet.indexOf c) c else c) =
      key.toList.get ⟨alphabet.indexOf c, by
        rw [hk.1, ← alphabet_length]; exact List.indexOf_lt_length.mpr hc⟩ := by
  rw [if_pos hc, List.getD_eq_getElem?_getD, List.getElem?_eq_getElem,
    Option.getD_some]
  rfl

lemma decChar_encChar (key : String) (hk : ValidKey key) (c : Char) :
    (fun c => if c ∈ key.toList then alphabet.getD (key.toList.indexOf c) c else c)
      (if c ∈ alphabet then key.toList.getD (alphabet.indexOf c) c else c) = c := by
  by_cases hc : c ∈ alphabet
  · have hidxA : alphabet.indexOf c < alphabet.length := List.indexOf_lt_length.mpr hc
    have hidxK : alphabet.indexOf c < key.toList.length := by
      rw [hk.1, ← alphabet_length]; exact hidxA
    rw [encChar_eq_get key hk hc]
    simp only []
    have hmem : key.toList.get ⟨alphabet.indexOf c, hidxK⟩ ∈ key.toList :=
      List.get_mem _ _ _
    rw [if_pos hmem]
    have hback : key.toList.indexOf
        (key.toList.get ⟨alphabet.indexOf c, hidxK⟩) = alphabet.indexOf c :=
      List.get_indexOf hk.2.1 _
    rw [hback, List.getD_eq_getElem?_getD, List.getElem?_eq_getElem hidxA,
      Option.getD_some, List.getElem_indexOf]
  · have hck : c ∉ key.toList := fun h => hc (hk.2.2 c h)
    rw [if_neg hc]
    simp only [if_neg hck]

/-- Claim C1: for every valid key (a permutation of the fixed 27-symbol
alphabet) and every text, `substitute_decrypt (substitute_encrypt text key)
key = text`, and every character of the text that is not in the alphabet is
left unchanged, in place, by both `substitute_encrypt` and
`substitute_decrypt`. -/
theorem substitute_roundtrip (key text : String) (hk : ValidKey key) :
    substitute_decrypt (substitute_encrypt text key) key = text ∧
    (∀ i c, text.toList.get? i = some c → c ∉ alphabet →
      (substitute_encrypt text key).toList.get? i = some c ∧
      (substitute_decrypt text key).toList.get? i = some c) := by
  constructor
  · show String.mk ((String.mk _).toList.map _) = text
    have : (String.mk (text.toList.map fun c =>
        if c ∈ alphabet then key.toList.getD (alphabet.indexOf c) c else c)).toList
        = text.toList.map fun c =>
          if c ∈ alphabet then key.toList.getD (alphabet.indexOf c) c else c := rfl
    rw [this, List.map_map]
    have hid : ∀ c ∈ text.toList,
        ((fun c => if c ∈ key.toList then alphabet.getD (key.toList.indexOf c) c else c) ∘
          (fun c => if c ∈ alphabet then key.toList.getD (alphabet.indexOf c) c else c)) c
          = c := fun c _ => decChar_encChar key hk c
    rw [List.map_congr_left hid, List.map_id']
    rfl
  · intro i c hget hc
    have hck : c ∉ key.toList := fun h => hc (hk.2.2 c h)
    constructor
    · show (text.toList.map _).get? i = some c
      rw [List.get?_map, hget]
      exact congrArg some (if_neg hc)
    · show (text.toList.map _).get? i = some c
      rw [List.get?_map, hget]
      exact congrArg some (if_neg hck)

/-- Witness for C1 at the identity key and a text containing characters
outside the alphabet. -/
theorem substitute_roundtrip_witness :
    ValidKey idKeyS ∧
    substitute_decrypt (substitute_encrypt "HELLO, WORLD!" idKeyS) idKeyS =
      "HELLO, WORLD!" :=
  ⟨by decide, (substitute_roundtrip idKeyS "HELLO, WORLD!" (by decide)).1⟩

lemma alphabetIdx_eq_some {c : Char} (hc : c ∈ alphabet) :
    alphabetIdx c =
      some ⟨alphabet.indexOf c, alphabet_length ▸ List.indexOf_lt_length.mpr hc⟩ := by
  unfold alphabetIdx
  rw [dif_pos (alphabet_length ▸ List.indexOf_lt_length.mpr hc)]

lemma alphabetIdx_eq_none {c : Char} (hc : c ∉ alphabet) :
    alphabetIdx c = none := by
  unfold alphabetIdx
  rw [dif_neg]
  intro h
  exact hc (List.indexOf_lt_length.mp (alphabet_length ▸ h))

lemma foldlM_tmStep_some (bgs : List (Char × Char))
    (hval : ∀ bg ∈ bgs, bg.1 ∈ alphabet ∧ bg.2 ∈ alphabet) :
    ∀ TM0, ∃ TMf, bgs.foldlM tmStep TM0 = some TMf ∧
      ∀ i j, TMf i j = TM0 i j + countBG bgs i j := by
  induction bgs with
  | nil =>
    intro TM0
    exact ⟨TM0, rfl, fun i j => by simp [countBG]⟩
  | cons bg tl ih =>
    intro TM0
    have h1 := (hval bg (List.mem_cons_self _ _)).1
    have h2 := (hval bg (List.mem_cons_self _ _)).2
    have htl : ∀ b ∈ tl, b.1 ∈ alphabet ∧ b.2 ∈ alphabet := fun b hb =>
      hval b (List.mem_cons_of_mem _ hb)
    cases hA : alphabetIdx bg.1 with
    | none => exact absurd hA (by rw [alphabetIdx_eq_some h1]; exact fun h => by cases h)
    | some i0 =>
      cases hB : alphabetIdx bg.2 with
      | none => exact absurd hB (by rw [alphabetIdx_eq_some h2]; exact fun h => by cases h)
      | some j0 =>
        have hstep : tmStep TM0 bg = some (bump TM0 i0 j0) := by
          simp [tmStep, hA, hB]
        obtain ⟨TMf, hf, hc⟩ := ih htl (bump TM0 i0 j0)
        refine ⟨TMf, ?_, ?_⟩
        · rw [List.foldlM_cons, hstep]
          simpa using hf
        · intro i j
          rw [hc i j]
          unfold bump countBG
          rw [List.countP_cons]
          by_cases hij : i = i0 ∧ j = j0
          · have hd : decide (alphabetIdx bg.1 = some i ∧ alphabetIdx bg.2 = some j)
                = true := by
              rw [hA, hB]
              simp [hij.1, hij.2]
            rw [if_pos hij, hd]
            simp only [if_true]
            omega
          · have hd : decide (alphabetIdx bg.1 = some i ∧ alphabetIdx bg.2 = some j)
                = false := by
              rw [hA, hB]
              simp only [decide_eq_false_iff_not]
              intro hcontra
              exact hij ⟨by injection hcontra.1 with h; exact h.symm,
                by injection hcontra.2 with h; exact h.symm⟩
            rw [if_neg hij, hd]
            simp only [Bool.false_eq_true, if_false]
            omega

lemma foldlM_tmStep_none (bgs : List (Char × Char))
    (hbad : ∃ bg ∈ bgs, bg.1 ∉ alphabet ∨ bg.2 ∉ alphabet) :
    ∀ TM0, bgs.foldlM tmStep TM0 = none := by
  induction bgs with
  | nil => exact absurd hbad (by simp)
  | cons bg tl ih =>
    intro TM0
    obtain ⟨b, hb, hbbad⟩ := hbad
    rcases List.mem_cons.mp hb with rfl | hbtl
    · have hstep : tmStep TM0 b = none := by
        rcases hbbad with h | h
        · simp [tmStep, alphabetIdx_eq_none h]
        · cases hA : alphabetIdx b.1 with
          | none => simp [tmStep, hA]
          | some i0 => simp [tmStep, hA, alphabetIdx_eq_none h]
      rw [List.foldlM_cons, hstep]
      rfl
    · cases hstep : tmStep TM0 bg with
      | none => rw [List.foldlM_cons, hstep]; rfl
      | some TM1 =>
        rw [List.foldlM_cons, hstep]
        simpa using ih ⟨b, hbtl, hbbad⟩ TM1

/-- Claim C4 (amended): `transition_matrix` does not skip windows containing
an out-of-alphabet symbol — any such window makes the whole build fail (the
unguarded `np.where(...)[0][0]` raises `IndexError`, modelled by `none`);
when every window's symbols are in the alphabet the build succeeds and each
cell holds the window count (floored to 1).  The skipping behaviour exists
only in `mutate_key_smart`. -/
theorem transition_matrix_unknown_symbols (bgs : List (Char × Char)) :
    ((∀ bg ∈ bgs, bg.1 ∈ alphabet ∧ bg.2 ∈ alphabet) →
      ∃ TM, transition_matrix bgs = some TM ∧
        ∀ i j, TM i j = if countBG bgs i j = 0 then 1 else countBG bgs i j) ∧
    ((∃ bg ∈ bgs, bg.1 ∉ alphabet ∨ bg.2 ∉ alphabet) →
      transition_matrix bgs = none) := by
  constructor
  · intro hval
    obtain ⟨TMf, hf, hc⟩ := foldlM_tmStep_some bgs hval (fun _ _ => 0)
    refine ⟨fun i j => if TMf i j = 0 then 1 else TMf i j, ?_, ?_⟩
    · unfold transition_matrix
      rw [hf]
      rfl
    · intro i j
      simp only []
      rw [hc i j, Nat.zero_add]
  · intro hbad
    unfold transition_matrix
    rw [foldlM_tmStep_none bgs hbad]
    rfl

/-- Counterexample to C4 as stated: building the order-2 tensor from the
text `"A B"` (space is outside the alphabet) fails instead of skipping the
offending windows. -/
theorem transition_matrix_unknown_fails :
    transition_matrix (get_bigrams "A B") = none := by
  unfold transition_matrix
  rw [foldlM_tmStep_none (get_bigrams "A B")
    ⟨('A', ' '), by decide, Or.inr (by decide)⟩]
  rfl

/-- Witness for C4 (amended): an all-alphabet bigram list builds, a list
with a space fails. -/
theorem transition_matrix_unknown_symbols_witness :
    (∃ TM, transition_matrix (get_bigrams "AB") = some TM ∧
      ∀ i j, TM i j = if countBG (get_bigrams "AB") i j = 0 then 1
        else countBG (get_bigrams "AB") i j) ∧
    transition_matrix (get_bigrams "A_B ") = none :=
  ⟨(transition_matrix_unknown_symbols (get_bigrams "AB")).1 (by decide),
   (transition_matrix_unknown_symbols (get_bigrams "A_B ")).2
     ⟨('B', ' '), by decide, Or.inr (by decide)⟩⟩

/-- Claim C9: every cell of a successfully built tensor is at least 1, and
the order-2 tensor of `"ABAB"` has cell (A,B) = 2, cell (B,A) = 1 and all
other cells equal to 1. -/
theorem transition_matrix_ge_one :
    (∀ bgs TM, transition_matrix bgs = some TM → ∀ i j, 1 ≤ TM i j) ∧
    ((transition_matrix (get_bigrams "ABAB")).map (fun TM => TM iA iB)
        = some 2 ∧
     (transition_matrix (get_bigrams "ABAB")).map (fun TM => TM iB iA)
        = some 1 ∧
     ∀ i j : Fin 27, ¬(i = iA ∧ j = iB) → ¬(i = iB ∧ j = iA) →
       (transition_matrix (get_bigrams "ABAB")).map (fun TM => TM i j)
          = some 1) := by
  constructor
  · intro bgs TM h i j
    rcases hfold : bgs.foldlM tmStep (fun _ _ => 0) with _ | TMf
    · unfold transition_matrix at h
      rw [hfold] at h
      cases h
    · unfold transition_matrix at h
      rw [hfold] at h
      simp only [Option.map_some'] at h
      injection h with h
      rw [← h]
      show 1 ≤ if TMf i j = 0 then 1 else TMf i j
      split
      · exact le_refl 1
      · omega
  · refine ⟨by decide, by decide, by decide⟩

/-- Witness for C9: the smoothing bound applied to the tensor of `"AB"` at
cell (A,A). -/
theorem transition_matrix_ge_one_witness :
    1 ≤ ((transition_matrix (get_bigrams "AB")).map
      (fun TM => TM iA iA)).getD 0 := by
  cases h : transition_matrix (get_bigrams "AB") with
  | none =>
    have hs : (transition_matrix (get_bigrams "AB")).isSome = true := by decide
    rw [h] at hs
    cases hs
  | some TM =>
    simp only [Option.map_some', Option.getD_some]
    exact transition_matrix_ge_one.1 _ TM h iA iA

/-- Counterexample to C5: the 27-`A` string is not a permutation of the
alphabet, yet both `__init__` and `set_start_key` store it without any
failure — no `InvalidKey` check exists in the code. -/
theorem invalid_key_accepted :
    ¬ ValidKey badKey ∧
    mhInit (some badKey) idKeyS = ⟨badKey, []⟩ ∧
    set_start_key (mhInit (some idKeyS) idKeyS) badKey = ⟨badKey, []⟩ :=
  ⟨by decide, rfl, rfl⟩

/-- Claim C5 (amended): constructing or setting a key performs no validation
at all: any non-empty string (permutation or not) is stored as-is, and there
is no failure path. -/
theorem key_construction_unvalidated (k : String) (hk : k ≠ "") :
    ∀ r obj, (mhInit (some k) r).start_key = k ∧
      (set_start_key obj k).start_key = k := by
  intro r obj
  exact ⟨by simp [mhInit, hk], rfl⟩

/-- Witness for C5 (amended) at the string `"Z"`. -/
theorem key_construction_unvalidated_witness :
    (mhInit (some "Z") idKeyS).start_key = "Z" ∧
    (set_start_key (mhInit none idKeyS) "Z").start_key = "Z" :=
  key_construction_unvalidated "Z" (by decide) idKeyS (mhInit none idKeyS)

lemma tm_some_ge_one (bgs : List (Char × Char)) (TM : Fin 27 → Fin 27 → ℕ)
    (h : transition_matrix bgs = some TM) : ∀ i j, 1 ≤ TM i j := by
  intro i j
  rcases hfold : bgs.foldlM tmStep (fun _ _ => 0) with _ | TMf
  · unfold transition_matrix at h
    rw [hfold] at h
    cases h
  · unfold transition_matrix at h
    rw [hfold] at h
    simp only [Option.map_some'] at h
    injection h with h
    rw [← h]
    show 1 ≤ if TMf i j = 0 then 1 else TMf i j
    split
    · exact le_refl 1
    · omega

lemma plausibility_nonneg (t : String) (TMref : Fin 27 → Fin 27 → ℚ) (p : ℝ)
    (href : ∀ i j, (1 : ℚ) ≤ TMref i j) (h : plausibility t TMref = some p) :
    0 ≤ p := by
  rcases htm : transition_matrix (get_bigrams t) with _ | TMobs
  · unfold plausibility at h
    rw [htm] at h
    cases h
  · unfold plausibility at h
    rw [htm] at h
    simp only [Option.map_some'] at h
    injection h with h
    rw [← h]
    refine Finset.sum_nonneg fun i _ => Finset.sum_nonneg fun j _ => ?_
    refine mul_nonneg (Real.log_nonneg ?_) (Nat.cast_nonneg _)
    exact_mod_cast href i j

lemma plausibility_all_zero (t1 t2 : String) (TMref : Fin 27 → Fin 27 → ℚ)
    (p2 : ℝ) (href : ∀ i j, (1 : ℚ) ≤ TMref i j)
    (h1 : plausibility t1 TMref = some 0)
    (h2 : plausibility t2 TMref = some p2) : p2 = 0 := by
  have hlog : ∀ i j : Fin 27, Real.log (TMref i j : ℝ) = 0 := by
    rcases htm : transition_matrix (get_bigrams t1) with _ | TMobs
    · unfold plausibility at h1
      rw [htm] at h1
      cases h1
    · unfold plausibility at h1
      rw [htm] at h1
      simp only [Option.map_some'] at h1
      injection h1 with h1
      have hnn : ∀ i ∈ (Finset.univ : Finset (Fin 27)),
          0 ≤ ∑ j : Fin 27, Real.log (TMref i j : ℝ) * (TMobs i j : ℝ) :=
        fun i _ => Finset.sum_nonneg fun j _ =>
          mul_nonneg (Real.log_nonneg (by exact_mod_cast href i j))
            (Nat.cast_nonneg _)
      intro i j
      have hrow := (Finset.sum_eq_zero_iff_of_nonneg hnn).mp h1 i
        (Finset.mem_univ i)
      have hnn2 : ∀ j ∈ (Finset.univ : Finset (Fin 27)),
          0 ≤ Real.log (TMref i j : ℝ) * (TMobs i j : ℝ) :=
        fun j _ => mul_nonneg (Real.log_nonneg (by exact_mod_cast href i j))
          (Nat.cast_nonneg _)
      have hterm := (Finset.sum_eq_zero_iff_of_nonneg hnn2).mp hrow j
        (Finset.mem_univ j)
      have hobs : 1 ≤ TMobs i j := tm_some_ge_one _ TMobs htm i j
      have hobs' : (0 : ℝ) < (TMobs i j : ℝ) := by exact_mod_cast hobs
      rcases mul_eq_zero.mp hterm with hl | hr
      · exact hl
      · exact absurd hr (ne_of_gt hobs')
  rcases htm2 : transition_matrix (get_bigrams t2) with _ | TMobs2
  · unfold plausibility at h2
    rw [htm2] at h2
    cases h2
  · unfold plausibility at h2
    rw [htm2] at h2
    simp only [Option.map_some'] at h2
    injection h2 with h2
    rw [← h2]
    refine Finset.sum_eq_zero fun i _ => Finset.sum_eq_zero fun j _ => ?_
    rw [hlog i j, zero_mul]

/-- Claim C10: for every text and every reference tensor whose cells are all
at least 1, a successfully computed plausibility is non-negative, and it is
0 whenever every reference cell equals 1 (so the base loop's current score
is never negative and its acceptance ratio `p_candidate / p_current` has a
zero divisor exactly when the current score is 0). -/
theorem plausibility_nonneg_claim :
    (∀ t TMref p, (∀ i j, (1 : ℚ) ≤ TMref i j) →
      plausibility t TMref = some p → 0 ≤ p) ∧
    (∀ t TMref p, (∀ i j, TMref i j = 1) →
      plausibility t TMref = some p → p = 0) := by
  constructor
  · exact fun t TMref p href h => plausibility_nonneg t TMref p href h
  · intro t TMref p href h
    rcases htm : transition_matrix (get_bigrams t) with _ | TMobs
    · unfold plausibility at h
      rw [htm] at h
      cases h
    · unfold plausibility at h
      rw [htm] at h
      simp only [Option.map_some'] at h
      injection h with h
      rw [← h]
      refine Finset.sum_eq_zero fun i _ => Finset.sum_eq_zero fun j _ => ?_
      rw [href i j]
      norm_num

lemma plausibility_oneRef_of_isSome (t : String)
    (h : (transition_matrix (get_bigrams t)).isSome = true) :
    plausibility t oneRef2 = some 0 := by
  rcases htm : transition_matrix (get_bigrams t) with _ | TMobs
  · rw [htm] at h
    cases h
  · unfold plausibility
    rw [htm]
    simp only [Option.map_some']
    congr 1
    refine Finset.sum_eq_zero fun i _ => Finset.sum_eq_zero fun j _ => ?_
    simp [oneRef2]

/-- Witness for C10 at the text `"AB"` and the all-ones reference tensor. -/
theorem plausibility_nonneg_claim_witness : (0 : ℝ) ≤ 0 ∧ (0 : ℝ) = 0 :=
  ⟨plausibility_nonneg_claim.1 "AB" oneRef2 0 (fun _ _ => le_refl 1)
     (plausibility_oneRef_of_isSome "AB" (by decide)),
   plausibility_nonneg_claim.2 "AB" oneRef2 0 (fun _ _ => rfl)
     (plausibility_oneRef_of_isSome "AB" (by decide))⟩

/-- Claim C2: one iteration of the base Metropolis loop accepts the
candidate exactly when `candidateScore > currentScore` or the 0.01-probability
event `u < 0.01` occurs; otherwise the current key and score are unchanged
(the score appended to the trajectory is the post-decision current score in
both cases).  The scores are plausibility values of a reference tensor with
cells at least 1, as the data model guarantees. -/
theorem mh_accept_rule (text : String) (TMref : Fin 27 → Fin 27 → ℚ)
    (st : MHState) (r : RandStep) (pc : ℝ)
    (href : ∀ i j, (1 : ℚ) ≤ TMref i j)
    (hcur : plausibility (substitute_decrypt text st.key) TMref = some st.p)
    (hpc : plausibility (substitute_decrypt text (swapKey st.key r.a r.b))
      TMref = some pc) :
    mhStep text TMref st r =
      some (if st.p < pc ∨ r.u < 1 / 100 then
          ⟨swapKey st.key r.a r.b, pc, st.scores ++ [pc]⟩
        else ⟨st.key, st.p, st.scores ++ [st.p]⟩) := by
  have h0 : 0 ≤ st.p := plausibility_nonneg _ _ _ href hcur
  have hiff : (1 < pc / st.p) ↔ st.p < pc := by
    rcases lt_or_eq_of_le h0 with hpos | hzero
    · rw [lt_div_iff hpos, one_mul]
    · have hcur0 : plausibility (substitute_decrypt text st.key) TMref
          = some 0 := by rw [hcur, ← hzero]
      have hpc0 : pc = 0 :=
        plausibility_all_zero _ _ TMref pc href hcur0 hpc
      rw [← hzero, hpc0, div_zero]
      simp
  unfold mhStep
  simp only [hpc, Option.map_some']
  congr 1
  exact if_congr (or_congr_left hiff) rfl rfl

/-- Witness for C2: a concrete rejected iteration (equal scores, `u = 1/2`)
leaves the key and score unchanged and appends the current score. -/
theorem mh_accept_rule_witness :
    mhStep "AB" oneRef2 ⟨idKeyS, 0, [0]⟩ ⟨0, 1, 1 / 2⟩ =
      some ⟨idKeyS, 0, [(0 : ℝ), 0]⟩ := by
  have h := mh_accept_rule "AB" oneRef2 ⟨idKeyS, 0, [0]⟩ ⟨0, 1, 1 / 2⟩ 0
    (fun _ _ => le_refl 1)
    (by rw [show substitute_decrypt "AB" idKeyS = "AB" from by decide]
        exact plausibility_oneRef_of_isSome "AB" (by decide))
    (by rw [show substitute_decrypt "AB" (swapKey idKeyS 0 1) = "BA" from by
          decide]
        exact plausibility_oneRef_of_isSome "BA" (by decide))
  have hnot : ¬(((⟨idKeyS, 0, [0]⟩ : MHState).p < (0 : ℝ)) ∨
      ((⟨0, 1, 1 / 2⟩ : RandStep).u < 1 / 100)) := by
    show ¬((0 : ℝ) < 0 ∨ (1 / 2 : ℚ) < 1 / 100)
    norm_num
  rw [h, if_neg hnot]
  rfl

/-- Counterexample to C7 as stated: the 4D annealing variant has no
temperature floor — at iteration 500000 its temperature lies strictly below
0.01, hence differs from the clamped form `max(T_min, T_0*cooling_rate^i)`
with the repository's floor `T_min = 0.01`. -/
theorem temperature_4d_unclamped :
    temperature_4d 500000 < 1 / 100 ∧
    temperature_4d 500000 ≠ max (1 / 100) (5 * (999 / 1000 : ℝ) ^ 500000) := by
  have key : (999 / 1000 : ℝ) ^ 500000 < 1 / 500 := by
    have h1 : (1 : ℝ) + 500000 * (1 / 999) ≤ (1 + 1 / 999) ^ 500000 :=
      one_add_mul_le_pow (by norm_num) 500000
    have h2 : (500 : ℝ) < (1 + 1 / 999) ^ 500000 :=
      lt_of_lt_of_le (by norm_num) h1
    have h3 : (999 / 1000 : ℝ) = (1 + 1 / 999)⁻¹ := by norm_num
    rw [h3, inv_pow, show (1 / 500 : ℝ) = 500⁻¹ from by norm_num]
    exact inv_lt_inv_of_lt (by norm_num) h2
  have hlt : temperature_4d 500000 < 1 / 100 := by
    unfold temperature_4d
    have h5 : (5 : ℝ) * ((999 / 1000 : ℝ) ^ 500000) < 5 * (1 / 500) :=
      mul_lt_mul_of_pos_left key (by norm_num)
    have h6 : (5 : ℝ) * (1 / 500) = 1 / 100 := by norm_num
    rw [h6] at h5
    exact h5
  refine ⟨hlt, fun hEq => ?_⟩
  have hfloor := le_max_left (1 / 100 : ℝ) (5 * (999 / 1000 : ℝ) ^ 500000)
  rw [← hEq] at hfloor
  exact absurd hfloor (not_le.mpr hlt)

/-- Claim C7 (amended): the 2D variant's temperature at iteration i is
`max(0.01, 5*cooling_rate^i)` while the 4D variant's is `5*0.999^i` with no
floor; in both variants, for positive temperature and uniform draw
`u ∈ [0,1)`, a candidate with `candidateScore >= currentScore` is always
accepted, and a worse candidate is accepted exactly when
`u < exp((candidateScore - currentScore)/T)`. -/
theorem annealing_accept_rule (pc pcur T u : ℝ) (hu1 : u < 1) (hT : 0 < T) :
    (u < accept_prob_2d ((pc - pcur) / T) ↔
      (pcur ≤ pc ∨ u < Real.exp ((pc - pcur) / T))) ∧
    (u < accept_prob_4d ((pc - pcur) / T) ↔
      (pcur ≤ pc ∨ u < Real.exp ((pc - pcur) / T))) ∧
    (∀ iter i, temperature_2d iter i =
      max (1 / 100) (5 * cooling_rate_2d iter ^ i)) ∧
    (∀ i, temperature_4d i = 5 * (999 / 1000 : ℝ) ^ i) := by
  have hdelta : (0 : ℝ) ≤ (pc - pcur) / T ↔ pcur ≤ pc := by
    rw [le_div_iff hT, zero_mul, sub_nonneg]
  refine ⟨?_, ?_, fun iter i => rfl, fun i => rfl⟩
  · unfold accept_prob_2d
    by_cases hd : 0 ≤ (pc - pcur) / T
    · rw [if_pos hd]
      exact ⟨fun _ => Or.inl (hdelta.mp hd), fun _ => hu1⟩
    · rw [if_neg hd]
      refine ⟨fun h => Or.inr h, fun h => ?_⟩
      rcases h with h | h
      · exact absurd (hdelta.mpr h) hd
      · exact h
  · unfold accept_prob_4d
    by_cases hd : 0 ≤ (pc - pcur) / T
    · rw [min_eq_left (Real.one_le_exp hd)]
      exact ⟨fun _ => Or.inl (hdelta.mp hd), fun _ => hu1⟩
    · rw [min_eq_right (le_of_lt (by
        rw [← Real.exp_zero]
        exact Real.exp_lt_exp.mpr (lt_of_not_le hd)))]
      refine ⟨fun h => Or.inr h, fun h => ?_⟩
      rcases h with h | h
      · exact absurd (hdelta.mpr h) hd
      · exact h

/-- Witness for C7 (amended) at `pc = 1, pcur = 0, T = 1, u = 0`. -/
theorem annealing_accept_rule_witness :
    (0 : ℝ) < 1 ∧
    ((0 : ℝ) < accept_prob_2d ((1 - 0) / 1) ↔
      ((0 : ℝ) ≤ 1 ∨ (0 : ℝ) < Real.exp ((1 - 0) / 1))) :=
  ⟨by norm_num,
   (annealing_accept_rule 1 0 1 0 (by norm_num) (by norm_num)).1⟩

lemma foldlM_option_induction {S R : Type} (f : S → R → Option S)
    (P : S → Prop) (hstep : ∀ s r s', f s r = some s' → P s → P s') :
    ∀ (l : List R) (s res : S), l.foldlM f s = some res → P s → P res := by
  intro l
  induction l with
  | nil =>
    intro s res h hs
    rw [List.foldlM_nil] at h
    injection h with h
    rw [← h]
    exact hs
  | cons r tl ih =>
    intro s res h hs
    rw [List.foldlM_cons] at h
    cases hstep1 : f s r with
    | none =>
      rw [hstep1] at h
      exact Option.noConfusion h
    | some s1 =>
      rw [hstep1] at h
      exact ih s1 res h (hstep s r s1 hstep1 hs)

lemma mhStep_scores_append (text : String) (TMref : Fin 27 → Fin 27 → ℚ)
    (st : MHState) (r : RandStep) (st' : MHState)
    (h : mhStep text TMref st r = some st') :
    st'.scores = st.scores ++ [st'.p] := by
  unfold mhStep at h
  cases hp : plausibility (substitute_decrypt text (swapKey st.key r.a r.b))
      TMref with
  | none =>
    simp only [hp, Option.map_none'] at h
    exact Option.noConfusion h
  | some pc =>
    simp only [hp, Option.map_some'] at h
    injection h with h
    rw [← h]
    split <;> rfl

lemma mhStep_accept (text : String) (TMref : Fin 27 → Fin 27 → ℚ)
    (st : MHState) (r : RandStep) (pc : ℝ)
    (hpc : plausibility (substitute_decrypt text (swapKey st.key r.a r.b))
      TMref = some pc)
    (hcond : 1 < pc / st.p ∨ r.u < 1 / 100) :
    mhStep text TMref st r =
      some ⟨swapKey st.key r.a r.b, pc, st.scores ++ [pc]⟩ := by
  unfold mhStep
  simp only [hpc, Option.map_some']
  rw [if_pos hcond]

lemma foldlM_mhStep_length (text : String) (TMref : Fin 27 → Fin 27 → ℚ) :
    ∀ (l : List RandStep) (st res : MHState),
      l.foldlM (mhStep text TMref) st = some res →
      res.scores.length = st.scores.length + l.length := by
  intro l
  induction l with
  | nil =>
    intro st res h
    rw [List.foldlM_nil] at h
    injection h with h
    rw [← h]
    simp
  | cons r tl ih =>
    intro st res h
    rw [List.foldlM_cons] at h
    cases hstep : mhStep text TMref st r with
    | none =>
      rw [hstep] at h
      exact Option.noConfusion h
    | some st1 =>
      rw [hstep] at h
      have h1 : st1.scores.length = st.scores.length + 1 := by
        rw [mhStep_scores_append text TMref st r st1 hstep]
        simp
      rw [ih st1 res h, h1, List.length_cons]
      omega

lemma plausibility_refAB2 (t : String) (TM : Fin 27 → Fin 27 → ℕ)
    (htm : transition_matrix (get_bigrams t) = some TM) :
    plausibility t refAB2 = some (Real.log 2 * (TM iA iB : ℝ)) := by
  unfold plausibility
  rw [htm]
  simp only [Option.map_some']
  congr 1
  have hcell : ∀ i j : Fin 27, Real.log ((refAB2 i j : ℚ) : ℝ) =
      if i = iA ∧ j = iB then Real.log 2 else 0 := by
    intro i j
    unfold refAB2
    by_cases hij : i = iA ∧ j = iB
    · rw [if_pos hij, if_pos hij]
      norm_num
    · rw [if_neg hij, if_neg hij]
      rw [show ((1 : ℚ) : ℝ) = 1 from by norm_num, Real.log_one]
  calc ∑ i : Fin 27, ∑ j : Fin 27, Real.log (refAB2 i j : ℝ) * (TM i j : ℝ)
      = ∑ i : Fin 27, ∑ j : Fin 27,
          (if i = iA ∧ j = iB then Real.log 2 * (TM i j : ℝ) else 0) := by
        refine Finset.sum_congr rfl fun i _ => Finset.sum_congr rfl fun j _ => ?_
        rw [hcell i j, ite_mul, zero_mul]
    _ = ∑ i : Fin 27, (if i = iA then
          ∑ j : Fin 27, (if j = iB then Real.log 2 * (TM i j : ℝ) else 0)
          else 0) := by
        refine Finset.sum_congr rfl fun i _ => ?_
        by_cases hi : i = iA
        · rw [if_pos hi]
          refine Finset.sum_congr rfl fun j _ => ?_
          by_cases hj : j = iB
          · rw [if_pos ⟨hi, hj⟩, if_pos hj]
          · rw [if_neg (fun hc => hj hc.2), if_neg hj]
        · rw [if_neg hi, Finset.sum_eq_zero]
          intro j _
          rw [if_neg (fun hc => hi hc.1)]
    _ = ∑ j : Fin 27, (if j = iB then Real.log 2 * (TM iA j : ℝ) else 0) :=
        Fintype.sum_ite_eq' iA _
    _ = Real.log 2 * (TM iA iB : ℝ) := Fintype.sum_ite_eq' iB _

lemma tm_cell_eval (t : String) (n : ℕ) (i j : Fin 27)
    (h : (transition_matrix (get_bigrams t)).map (fun TM => TM i j) = some n) :
    ∀ TM, transition_matrix (get_bigrams t) = some TM → TM i j = n := by
  intro TM htm
  rw [htm] at h
  simpa using h

lemma plaus_abab : plausibility "ABAB" refAB2 = some (Real.log 2 * 2) := by
  cases htm : transition_matrix (get_bigrams "ABAB") with
  | none =>
    have hs : (transition_matrix (get_bigrams "ABAB")).isSome = true := by decide
    rw [htm] at hs
    cases hs
  | some TM =>
    rw [plausibility_refAB2 "ABAB" TM htm]
    have hc : TM iA iB = 2 := tm_cell_eval "ABAB" 2 iA iB (by decide) TM htm
    rw [hc]
    norm_num

lemma plaus_baba : plausibility "BABA" refAB2 = some (Real.log 2 * 1) := by
  cases htm : transition_matrix (get_bigrams "BABA") with
  | none =>
    have hs : (transition_matrix (get_bigrams "BABA")).isSome = true := by decide
    rw [htm] at hs
    cases hs
  | some TM =>
    rw [plausibility_refAB2 "BABA" TM htm]
    have hc : TM iA iB = 1 := tm_cell_eval "BABA" 1 iA iB (by decide) TM htm
    rw [hc]
    norm_num

/-- Counterexample to C3 as stated: a one-iteration base Metropolis run on
`"ABAB"` accepts a worse key through the fixed-probability branch
(`u = 1/200 < 0.01`) and returns that key's score `log 2 * 1`, although the
trajectory records the strictly better initial score `log 2 * 2` — the base
variant keeps no best-ever state and returns the final current key, not the
best-ever key. -/
theorem base_run_returns_nonbest :
    mhRun "ABAB" refAB2 [⟨0, 1, 1 / 200⟩] idKeyS =
      some ⟨"BACDEFGHIJKLMNOPQRSTUVWXYZ_", "BABA", Real.log 2 * 1,
        [Real.log 2 * 2, Real.log 2 * 1]⟩ ∧
    Real.log 2 * 1 < Real.log 2 * 2 := by
  have hlog : 0 < Real.log 2 := Real.log_pos (by norm_num)
  have hd0 : substitute_decrypt "ABAB" idKeyS = "ABAB" := by decide
  have hd1 : substitute_decrypt "ABAB" "BACDEFGHIJKLMNOPQRSTUVWXYZ_" = "BABA" :=
    by decide
  constructor
  · have hstep : mhStep "ABAB" refAB2
        ⟨idKeyS, Real.log 2 * 2, [Real.log 2 * 2]⟩ ⟨0, 1, 1 / 200⟩ =
        some ⟨"BACDEFGHIJKLMNOPQRSTUVWXYZ_", Real.log 2 * 1,
          [Real.log 2 * 2, Real.log 2 * 1]⟩ :=
      mhStep_accept "ABAB" refAB2 _ _ (Real.log 2 * 1)
        (by show plausibility (substitute_decrypt "ABAB" (swapKey idKeyS 0 1))
              refAB2 = some (Real.log 2 * 1)
            rw [show swapKey idKeyS 0 1 = "BACDEFGHIJKLMNOPQRSTUVWXYZ_" from
              by decide, hd1]
            exact plaus_baba)
        (Or.inr (by norm_num))
    unfold mhRun
    rw [hd0, plaus_abab]
    simp only [Option.bind_eq_bind, Option.some_bind, Option.pure_def]
    rw [List.foldlM_cons, hstep]
    simp only [Option.bind_eq_bind, Option.some_bind, List.foldlM_nil,
      Option.pure_def]
    rw [hd1]
  · linarith

lemma step2D_scores_append (text d0 : String) (TMref : Fin 27 → Fin 27 → ℚ)
    (iter : ℕ) (st : State2D) (r : Rand2D) (st' : State2D)
    (h : step2D text d0 TMref iter st r = some st') :
    st'.scores = st.scores ++ [st.p] := by
  unfold step2D at h
  cases hp : plausibility (substitute_decrypt text
      (mutate_key_smart st.key d0 TMref r.coin r.a r.b)) TMref with
  | none =>
    simp only [hp, Option.map_none'] at h
    exact Option.noConfusion h
  | some pc =>
    simp only [hp, Option.map_some'] at h
    injection h with h
    rw [← h]
    split <;> rfl

lemma mhRun_nil_eval : mhRun "AB" oneRef2 [] idKeyS =
    some ⟨idKeyS, "AB", 0, [0]⟩ := by
  unfold mhRun
  rw [show substitute_decrypt "AB" idKeyS = "AB" from by decide,
    plausibility_oneRef_of_isSome "AB" (by decide)]
  rfl

/-- Claim C8 (amended): every variant appends exactly one trajectory entry
per iteration (one per `RandStep`), plus the initial entry, and a
0-iteration run returns the initial key, its initial score and a
single-entry trajectory; the base loop appends the post-decision current
score, but the 2D loop appends the pre-decision current score (its append
runs before the acceptance update). -/
theorem trajectory_append_rule :
    (∀ text TMref k, mhRun text TMref [] k =
      (plausibility (substitute_decrypt text k) TMref).map fun p0 =>
        ⟨k, substitute_decrypt text k, p0, [p0]⟩) ∧
    (∀ text TMref st r st', mhStep text TMref st r = some st' →
      st'.scores = st.scores ++ [st'.p]) ∧
    (∀ text TMref randoms k res, mhRun text TMref randoms k = some res →
      res.scores.length = randoms.length + 1) ∧
    (∀ text d0 TMref iter st r st', step2D text d0 TMref iter st r = some st' →
      st'.scores = st.scores ++ [st.p]) := by
  refine ⟨?_, ?_, ?_, ?_⟩
  · intro text TMref k
    cases hp : plausibility (substitute_decrypt text k) TMref with
    | none =>
      unfold mhRun
      rw [hp]
      rfl
    | some p0 =>
      unfold mhRun
      rw [hp]
      rfl
  · exact fun text TMref st r st' h =>
      mhStep_scores_append text TMref st r st' h
  · intro text TMref randoms k res h
    unfold mhRun at h
    cases hp : plausibility (substitute_decrypt text k) TMref with
    | none =>
      rw [hp] at h
      exact Option.noConfusion h
    | some p0 =>
      rw [hp] at h
      simp only [Option.bind_eq_bind, Option.some_bind] at h
      cases hfold : randoms.foldlM (mhStep text TMref) ⟨k, p0, [p0]⟩ with
      | none =>
        rw [hfold] at h
        exact Option.noConfusion h
      | some final =>
        rw [hfold] at h
        simp only [Option.some_bind, Option.pure_def] at h
        injection h with h
        rw [← h]
        have := foldlM_mhStep_length text TMref randoms ⟨k, p0, [p0]⟩ final hfold
        simp only [] at this ⊢
        rw [this]
        simp [Nat.add_comm]
  · exact fun text d0 TMref iter st r st' h =>
      step2D_scores_append text d0 TMref iter st r st' h

/-- Witness for C8 (amended): a 0-iteration base run has a one-entry
trajectory. -/
theorem trajectory_append_rule_witness :
    (⟨idKeyS, "AB", 0, [0]⟩ : MHResult).scores.length =
      ([] : List RandStep).length + 1 :=
  trajectory_append_rule.2.2.1 "AB" oneRef2 [] idKeyS
    ⟨idKeyS, "AB", 0, [0]⟩ mhRun_nil_eval

lemma step2D_accept (text d0 : String) (TMref : Fin 27 → Fin 27 → ℚ)
    (iter : ℕ) (st : State2D) (r : Rand2D) (pc : ℝ)
    (hpc : plausibility (substitute_decrypt text
      (mutate_key_smart st.key d0 TMref r.coin r.a r.b)) TMref = some pc)
    (hacc : (r.u : ℝ) <
      accept_prob_2d ((pc - st.p) / temperature_2d iter st.iterIdx)) :
    step2D text d0 TMref iter st r = some
      ⟨mutate_key_smart st.key d0 TMref r.coin r.a r.b, pc,
       if st.best < pc then mutate_key_smart st.key d0 TMref r.coin r.a r.b
         else st.best_key,
       if st.best < pc then pc else st.best,
       st.scores ++ [st.p], st.iterIdx + 1⟩ := by
  unfold step2D
  simp only [hpc, Option.map_some']
  rw [if_pos hacc]

/-- Counterexample to C8 as stated: a concrete accepted 2D iteration whose
appended trajectory entry is the pre-decision score `log 2 * 2`, different
from the post-decision current score `log 2 * 1`. -/
theorem trajectory_pre_decision_2d :
    step2D "ABAB" "ABAB" refAB2 1
      ⟨idKeyS, Real.log 2 * 2, idKeyS, Real.log 2 * 2, [Real.log 2 * 2], 0⟩
      ⟨0, 0, 1, 0⟩ =
      some ⟨"BACDEFGHIJKLMNOPQRSTUVWXYZ_", Real.log 2 * 1, idKeyS,
        Real.log 2 * 2, [Real.log 2 * 2, Real.log 2 * 2], 1⟩ ∧
    Real.log 2 * 2 ≠ Real.log 2 * 1 := by
  have hlog : 0 < Real.log 2 := Real.log_pos (by norm_num)
  have hmut : mutate_key_smart idKeyS "ABAB" refAB2 0 0 1 =
      "BACDEFGHIJKLMNOPQRSTUVWXYZ_" := by
    unfold mutate_key_smart
    rw [if_pos (by norm_num : (0 : ℚ) < 1 / 2)]
    decide
  constructor
  · have h := step2D_accept "ABAB" "ABAB" refAB2 1
      ⟨idKeyS, Real.log 2 * 2, idKeyS, Real.log 2 * 2, [Real.log 2 * 2], 0⟩
      ⟨0, 0, 1, 0⟩ (Real.log 2 * 1)
      (by show plausibility (substitute_decrypt "ABAB"
            (mutate_key_smart idKeyS "ABAB" refAB2 0 0 1)) refAB2 =
            some (Real.log 2 * 1)
          rw [hmut, show substitute_decrypt "ABAB"
            "BACDEFGHIJKLMNOPQRSTUVWXYZ_" = "BABA" from by decide]
          exact plaus_baba)
      (by show ((0 : ℚ) : ℝ) < accept_prob_2d
            ((Real.log 2 * 1 - Real.log 2 * 2) / temperature_2d 1 0)
          have hT : 0 < temperature_2d 1 0 :=
            lt_of_lt_of_le (by norm_num) (le_max_left _ _)
          have hdneg : (Real.log 2 * 1 - Real.log 2 * 2) / temperature_2d 1 0
              < 0 := div_neg_of_neg_of_pos (by linarith) hT
          unfold accept_prob_2d
          rw [if_neg (not_le.mpr hdneg)]
          push_cast
          exact Real.exp_pos _)
    rw [h]
    dsimp only []
    rw [hmut, if_neg (by linarith : ¬ (Real.log 2 * 2 < Real.log 2 * 1)),
      if_neg (by linarith : ¬ (Real.log 2 * 2 < Real.log 2 * 1))]
    rfl
  · intro heq
    have : Real.log 2 = 0 := by linarith
    linarith

lemma step2D_cases (text d0 : String) (TMref : Fin 27 → Fin 27 → ℚ)
    (iter : ℕ) (st : State2D) (r : Rand2D) (st' : State2D)
    (h : step2D text d0 TMref iter st r = some st') :
    ∃ pc, plausibility (substitute_decrypt text
        (mutate_key_smart st.key d0 TMref r.coin r.a r.b)) TMref = some pc ∧
      st'.best = (if st.best < pc then pc else st.best) ∧
      st'.best_key = (if st.best < pc then
        mutate_key_smart st.key d0 TMref r.coin r.a r.b else st.best_key) ∧
      (st'.p = pc ∨ st'.p = st.p) ∧
      st'.scores = st.scores ++ [st.p] := by
  unfold step2D at h
  cases hp : plausibility (substitute_decrypt text
      (mutate_key_smart st.key d0 TMref r.coin r.a r.b)) TMref with
  | none =>
    simp only [hp, Option.map_none'] at h
    exact Option.noConfusion h
  | some pc =>
    simp only [hp, Option.map_some'] at h
    injection h with h
    refine ⟨pc, rfl, ?_, ?_, ?_, ?_⟩
    · rw [← h]
      split <;> rfl
    · rw [← h]
      split <;> rfl
    · rw [← h]
      split
      · exact Or.inl rfl
      · exact Or.inr rfl
    · rw [← h]
      split <;> rfl

/-- Claim C3 (amended): in the 2D annealing variant the best-ever score is
non-decreasing from iteration to iteration and the run returns the best-ever
key, the decryption of the ciphertext under that key, and the best-ever
score, which dominates every entry of the trajectory — the best result is
never lost even when the chain accepts worse keys.  (The base variant has no
best-ever tracking and returns the final current key and score instead; see
the counterexample.) -/
theorem best_score_tracking :
    (∀ text d0 TMref iter st r st',
      step2D text d0 TMref iter st r = some st' → st.best ≤ st'.best) ∧
    (∀ text TMref randoms k res, run2D text TMref randoms k = some res →
      res.text = substitute_decrypt text res.key ∧
      plausibility res.text TMref = some res.score ∧
      ∀ s ∈ res.scores, s ≤ res.score) := by
  have hstep_mono : ∀ text d0 TMref iter st r st',
      step2D text d0 TMref iter st r = some st' → st.best ≤ st'.best := by
    intro text d0 TMref iter st r st' h
    obtain ⟨pc, _, hbest, _, _, _⟩ := step2D_cases text d0 TMref iter st r st' h
    rw [hbest]
    split
    · next hlt => exact le_of_lt hlt
    · exact le_refl _
  refine ⟨hstep_mono, ?_⟩
  intro text TMref randoms k res h
  unfold run2D at h
  cases hp : plausibility (substitute_decrypt text k) TMref with
  | none =>
    rw [hp] at h
    exact Option.noConfusion h
  | some p0 =>
    rw [hp] at h
    simp only [Option.bind_eq_bind, Option.some_bind] at h
    have hpres : ∀ st r st',
        step2D text (substitute_decrypt text k) TMref randoms.length st r =
          some st' →
        (plausibility (substitute_decrypt text st.best_key) TMref =
            some st.best ∧ st.p ≤ st.best ∧ ∀ s ∈ st.scores, s ≤ st.best) →
        (plausibility (substitute_decrypt text st'.best_key) TMref =
            some st'.best ∧ st'.p ≤ st'.best ∧
          ∀ s ∈ st'.scores, s ≤ st'.best) := by
      intro st r st' hstep hP
      obtain ⟨pc, hpc, hbest, hbestk, hpor, hsc⟩ :=
        step2D_cases text (substitute_decrypt text k) TMref randoms.length
          st r st' hstep
      obtain ⟨hPb, hPp, hPs⟩ := hP
      have hmono : st.best ≤ st'.best := by
        rw [hbest]
        split
        · next hlt => exact le_of_lt hlt
        · exact le_refl _
      refine ⟨?_, ?_, ?_⟩
      · rw [hbestk, hbest]
        by_cases hb : st.best < pc
        · rw [if_pos hb, if_pos hb]
          exact hpc
        · rw [if_neg hb, if_neg hb]
          exact hPb
      · rcases hpor with hpp | hpp
        · rw [hpp, hbest]
          split
          · exact le_refl _
          · next hb => exact le_of_not_lt hb
        · rw [hpp]
          exact le_trans hPp hmono
      · rw [hsc]
        intro s hs
        rcases List.mem_append.mp hs with hs | hs
        · exact le_trans (hPs s hs) hmono
        · simp only [List.mem_singleton] at hs
          rw [hs]
          exact le_trans hPp hmono
    cases hfold : randoms.foldlM
        (step2D text (substitute_decrypt text k) TMref randoms.length)
        ⟨k, p0, k, p0, [p0], 0⟩ with
    | none =>
      rw [hfold] at h
      exact Option.noConfusion h
    | some final =>
      rw [hfold] at h
      simp only [Option.some_bind, Option.pure_def] at h
      injection h with h
      have hInv := foldlM_option_induction
        (step2D text (substitute_decrypt text k) TMref randoms.length)
        (fun st => plausibility (substitute_decrypt text st.best_key) TMref =
          some st.best ∧ st.p ≤ st.best ∧ ∀ s ∈ st.scores, s ≤ st.best)
        hpres randoms ⟨k, p0, k, p0, [p0], 0⟩ final hfold
        ⟨hp, le_refl _, by
          intro s hs
          simp only [List.mem_singleton] at hs
          rw [hs]⟩
      rw [← h]
      exact ⟨rfl, hInv.1, hInv.2.2⟩

lemma run2D_nil_eval : run2D "AB" oneRef2 [] idKeyS =
    some ⟨idKeyS, "AB", 0, [0]⟩ := by
  unfold run2D
  rw [show substitute_decrypt "AB" idKeyS = "AB" from by decide,
    plausibility_oneRef_of_isSome "AB" (by decide)]
  rfl

/-- Witness for C3 (amended): a 0-iteration 2D run returns the start key,
its decryption, and a score dominating the one-entry trajectory. -/
theorem best_score_tracking_witness :
    "AB" = substitute_decrypt "AB" idKeyS ∧
    plausibility "AB" oneRef2 = some 0 ∧
    ∀ s ∈ [(0 : ℝ)], s ≤ 0 :=
  best_score_tracking.2 "AB" oneRef2 [] idKeyS ⟨idKeyS, "AB", 0, [0]⟩
    run2D_nil_eval

lemma worstFold_acc {W : Type} (valScore : W → Option ℚ) :
    ∀ (l : List W) (p : W × ℚ),
      worstFold valScore l (some p) =
        (match firstArgmin valScore l with
         | none => some p
         | some q => if q.2 < p.2 then some q else some p) := by
  intro l
  induction l with
  | nil => intro p; rfl
  | cons w ws ih =>
    intro p
    cases hv : valScore w with
    | none =>
      simp only [worstFold, firstArgmin, hv]
      exact ih p
    | some s =>
      simp only [worstFold, firstArgmin, hv]
      rw [ih (w, s), ih p]
      cases hF : firstArgmin valScore ws with
      | none =>
        show (if s < p.2 then some (w, s) else some p) =
          (if s < p.2 then some (w, s) else some p)
        rfl
      | some q =>
        show (if s < p.2
            then (if q.2 < s then some q else some (w, s))
            else (if q.2 < p.2 then some q else some p)) =
          (match (if q.2 < s then some q else some (w, s)) with
           | none => some p
           | some r => if r.2 < p.2 then some r else some p)
        by_cases hqs : q.2 < s
        · rw [if_pos hqs]
          show (if s < p.2 then some q
              else (if q.2 < p.2 then some q else some p)) =
            (if q.2 < p.2 then some q else some p)
          by_cases hsp : s < p.2
          · rw [if_pos hsp, if_pos (lt_trans hqs hsp)]
          · rw [if_neg hsp]
        · rw [if_neg hqs]
          show (if s < p.2 then some (w, s)
              else (if q.2 < p.2 then some q else some p)) =
            (if s < p.2 then some (w, s) else some p)
          by_cases hsp : s < p.2
          · rw [if_pos hsp, if_pos hsp]
          · rw [if_neg hsp, if_neg hsp,
              if_neg (show ¬ q.2 < p.2 by
                push_neg at hqs hsp
                intro hc
                linarith)]

lemma worstFold_none_eq {W : Type} (valScore : W → Option ℚ) :
    ∀ l, worstFold valScore l none = firstArgmin valScore l := by
  intro l
  induction l with
  | nil => rfl
  | cons w ws ih =>
    cases hv : valScore w with
    | none =>
      simp only [worstFold, firstArgmin, hv]
      exact ih
    | some s =>
      simp only [worstFold, firstArgmin, hv]
      rw [worstFold_acc]

lemma set_getD_self : ∀ (l : List Char) (i : ℕ), l.set i (l.getD i ' ') = l := by
  intro l
  induction l with
  | nil => intro i; rfl
  | cons c tl ih =>
    intro i
    cases i with
    | zero => rfl
    | succ n =>
      show c :: tl.set n (tl.getD n ' ') = c :: tl
      rw [ih n]

lemma swapList_self (l : List Char) (i : ℕ) : swapList l i i = l := by
  show (l.set i (l.getD i ' ')).set i (l.getD i ' ') = l
  rw [set_getD_self l i, set_getD_self l i]

lemma smart_swap_2d_spec (key : List Char) (bg : Char × Char) :
    smart_swap_2d key bg =
      (match (if bg.1 = bg.2 then [bg.1] else [bg.1, bg.2]).filterMap
          (fun c => key.findIdx? (fun x => x == c)) with
       | i :: j :: _ => swapList key i j
       | _ => key) := by
  unfold smart_swap_2d
  by_cases hbg : bg.1 = bg.2
  · rw [if_pos hbg, ← hbg]
    cases hf : key.findIdx? (fun x => x == bg.1) with
    | none => simp [List.filterMap_cons, hf]
    | some i =>
      simp only [List.filterMap_cons, hf, List.filterMap_nil]
      exact swapList_self key i
  · rw [if_neg hbg]
    cases hf1 : key.findIdx? (fun x => x == bg.1) <;>
      cases hf2 : key.findIdx? (fun x => x == bg.2) <;>
        simp [List.filterMap_cons, List.filterMap_nil, hf1, hf2]

lemma smart_swap_4d_spec (key : List Char) (fg : Char × Char × Char × Char) :
    smart_swap_4d key fg =
      (match [fg.1, fg.2.1, fg.2.2.1, fg.2.2.2].filterMap
          (fun c => key.findIdx? (fun x => x == c)) with
       | i :: j :: _ => swapList key i j
       | _ => key) := by
  show (match ([fg.1, fg.2.1, fg.2.2.1, fg.2.2.2].map
      (fun c => key.findIdx? (fun x => x == c))).filterMap id with
    | i :: j :: _ => swapList key i j
    | _ => key) =
    (match [fg.1, fg.2.1, fg.2.2.1, fg.2.2.2].filterMap
        (fun c => key.findIdx? (fun x => x == c)) with
     | i :: j :: _ => swapList key i j
     | _ => key)
  rw [List.filterMap_map]
  rfl

/-- Counterexample to C6 as stated: on the decryption `"AABC"` (single worst
window `(A,A,B,C)`, all symbols in the identity key) the 4D smart mutation
takes the first two *found* positions — both occurrences of `A`, position 0
twice — and swaps a position with itself, returning the key unchanged,
whereas the claim prescribes exchanging the positions of the first two
*distinct* symbols `A` and `B`, which yields a different key. -/
theorem worst_ngram_swap_dupes :
    mutate_key_smart_4d idKeyS "AABC" oneRef4 (3 / 5) 0 1 = idKeyS ∧
    swapKey idKeyS 0 1 ≠ idKeyS := by
  constructor
  · unfold mutate_key_smart_4d
    rw [if_neg (by norm_num : ¬ ((3 / 5 : ℚ) < 1 / 2))]
    rw [show worstFold (valScore4 oneRef4) (get_fourgrams "AABC") none =
      some (('A', 'A', 'B', 'C'), 1) from by decide]
    show String.mk (smart_swap_4d idKeyS.toList ('A', 'A', 'B', 'C')) = idKeyS
    rw [show smart_swap_4d idKeyS.toList ('A', 'A', 'B', 'C') =
      idKeyS.toList from by decide]
    rfl
  · decide

/-- Claim C6 (amended): both smart mutations scan all order-n windows of the
given decryption, skip windows with a symbol outside the alphabet, and pick
the window of minimal reference count, ties broken by first occurrence (the
code's strict-improvement fold equals the first-argmin of the window list).
The 2D variant then exchanges the key positions of the first two distinct
symbols of that window that occur in the key, returning the key unchanged if
fewer than two such positions exist — exactly as claimed.  The 4D variant
instead takes the window's symbols in window order *without removing
duplicates*, keeps those present in the key, and exchanges the key positions
of the first two; when these are two occurrences of the same symbol the
exchange is a no-op. -/
theorem worst_ngram_swap_rule :
    (∀ key d TMref coin a b, mutate_key_smart key d TMref coin a b =
      mutate_key_smart_spec key d TMref coin a b) ∧
    (∀ key d TMref coin a b, mutate_key_smart_4d key d TMref coin a b =
      mutate_key_smart_4d_spec key d TMref coin a b) := by
  constructor
  · intro key d TMref coin a b
    unfold mutate_key_smart mutate_key_smart_spec
    by_cases hc : coin < 1 / 2
    · rw [if_pos hc, if_pos hc]
    · rw [if_neg hc, if_neg hc, worstFold_none_eq]
      cases hF : firstArgmin (valScore2 TMref) (get_bigrams d) with
      | none => rfl
      | some p =>
        show String.mk (smart_swap_2d key.toList p.1) =
          (match (if p.1.1 = p.1.2 then [p.1.1] else [p.1.1, p.1.2]).filterMap
              (fun c => key.toList.findIdx? (fun x => x == c)) with
           | i :: j :: _ => String.mk (swapList key.toList i j)
           | _ => key)
        rw [smart_swap_2d_spec key.toList p.1]
        cases hm : (if p.1.1 = p.1.2 then [p.1.1] else [p.1.1, p.1.2]).filterMap
            (fun c => key.toList.findIdx? (fun x => x == c)) with
        | nil => rfl
        | cons i rest =>
          cases rest with
          | nil => rfl
          | cons j rest2 => rfl
  · intro key d TMref coin a b
    unfold mutate_key_smart_4d mutate_key_smart_4d_spec
    by_cases hc : coin < 1 / 2
    · rw [if_pos hc, if_pos hc]
    · rw [if_neg hc, if_neg hc, worstFold_none_eq]
      cases hF : firstArgmin (valScore4 TMref) (get_fourgrams d) with
      | none => rfl
      | some p =>
        show String.mk (smart_swap_4d key.toList p.1) =
          (match [p.1.1, p.1.2.1, p.1.2.2.1, p.1.2.2.2].filterMap
              (fun c => key.toList.findIdx? (fun x => x == c)) with
           | i :: j :: _ => String.mk (swapList key.toList i j)
           | _ => key)
        rw [smart_swap_4d_spec key.toList p.1]
        cases hm : [p.1.1, p.1.2.1, p.1.2.2.1, p.1.2.2.2].filterMap
            (fun c => key.toList.findIdx? (fun x => x == c)) with
        | nil => rfl
        | cons i rest =>
          cases rest with
          | nil => rfl
          | cons j rest2 => rfl
